import Mathlib

/-!
# Verification of the Yelp stream pipeline

Shallow embedding of the repository's streaming pipeline:

* `yelp_s3_to_kinesis_producer.py` — the Record Source Reader
  (`process_yelp_reviews`: chunked NDJSON reading with a carry-over
  buffer) and the Delivery Client (`send_batch`: per-record failure
  extraction and recursive resubmission).
* `yelp_kinesis_consumer.py` — the Record Processor
  (`preprocess_text`, `analyze_review_sentiment`, `process_record`),
  the Window Store (`clean_windows`), the Aggregator
  (`get_trending_words`, `get_trending_businesses`) and the Shard
  Poller (`process_shard`).

Times and star ratings are rationals (Python floats/datetimes carry
sub-second precision); machine-level float rounding is immaterial to
the properties proved here.  External collaborators (TextBlob's
polarity, `float` on strings, `datetime.fromisoformat`) enter as
function parameters, so every theorem holds for every behaviour of
those collaborators.
-/

namespace StreamPipeline

/-! ## Record Source Reader (producer, lines 33–100)

The producer reads the S3 object in chunks, appends each decoded chunk
to a string `buffer`, splits the buffer on newlines, keeps the final
(possibly incomplete) segment `lines[-1]` as the new buffer and emits
the complete lines `lines[:-1]`. -/

/-- Python's `buffer.split(chr 10)` viewed as (complete lines, trailing
segment): the pair `(lines[:-1], lines[-1])` of the source's split. -/
def splitLines : List Char → List (List Char) × List Char
  | [] => ([], [])
  | c :: cs =>
    let r := splitLines cs
    if c = '\n' then ([] :: r.1, r.2)
    else
      match r.1 with
      | [] => ([], c :: r.2)
      | l :: ls => ((c :: l) :: ls, r.2)

/-- The chunk loop of `process_yelp_reviews` (lines 36–50): carry the
trailing incomplete segment over to the next chunk, emit complete
lines in order.  Returns (emitted lines, final buffer). -/
def runChunks : List Char → List (List Char) → List (List Char) × List Char
  | buf, [] => ([], buf)
  | buf, ch :: rest =>
    let r := splitLines (buf ++ ch)
    let r2 := runChunks r.2 rest
    (r.1 ++ r2.1, r2.2)

/-- Whitespace characters recognised by Python's `str.split()` /
`str.strip()` (ASCII range). -/
def isSpaceChar (c : Char) : Bool := decide
  (c = ' ' ∨ c = '\t' ∨ c = '\n' ∨ c = '\r' ∨ c = Char.ofNat 11 ∨ c = Char.ofNat 12)

/-- `not line.strip()` of line 51: the line is entirely whitespace. -/
def isBlankLine (l : List Char) : Bool := l.all isSpaceChar

/-- The record sequence the reader emits (lines 50–96): blank lines
are skipped, the per-line JSON parse is abstracted as `parse` (a line
it rejects is skipped with a warning). -/
def emitRecords {R : Type} (parse : List Char → Option R) (chunks : List (List Char)) : List R :=
  (((runChunks [] chunks).1.filter (fun l => !isBlankLine l)).filterMap parse)

/-! ## Byte level: per-chunk UTF-8 decoding (line 41)

Each raw chunk is decoded separately by
`chunk.decode(utf-8, errors=ignore)` before entering the carry-over
buffer, so the byte stream must be modelled below the character level.
The decoder here covers ASCII and two-byte sequences and drops every
other byte (the `ignore` handler); the three/four-byte forms and the
overlong/surrogate rejections of the real codec are not exercised by
any theorem in this file. -/

/-- A UTF-8 continuation byte. -/
def isContByte (b : ℕ) : Bool := decide (128 ≤ b ∧ b < 192)

/-- `bytes.decode(utf-8, errors=ignore)` on ASCII and two-byte
sequences; undecodable bytes are dropped. -/
def utf8DecodeIgnore : List ℕ → List Char
  | [] => []
  | [b] => if b < 128 then [Char.ofNat b] else []
  | b :: b2 :: bs =>
    if b < 128 then Char.ofNat b :: utf8DecodeIgnore (b2 :: bs)
    else if 194 ≤ b ∧ b ≤ 223 ∧ isContByte b2 then
      Char.ofNat ((b - 192) * 64 + (b2 - 128)) :: utf8DecodeIgnore bs
    else utf8DecodeIgnore (b2 :: bs)

/-- The reader at the byte level: decode each physical chunk on its
own, then run the carry-over loop on the decoded chunks. -/
def emitRecordsBytes {R : Type} (parse : List Char → Option R) (chunks : List (List ℕ)) :
    List R :=
  emitRecords parse (chunks.map utf8DecodeIgnore)

/-! ## Delivery Client (producer, lines 111–153)

`send_batch` submits the pending batch, extracts the records whose
per-record response carries an ErrorCode, and recursively resubmits
exactly those.  The transport is an oracle: one `PutOutcome` per
`put_records` call, either a per-record failure mask (`true` =
ErrorCode present) or a raised exception. -/

inductive PutOutcome : Type
  | ok (failures : List Bool)
  | exn
deriving DecidableEq

/-- Lines 137–140: `[self.record_batch[i] for i, r in
enumerate(response.Records) if ErrorCode in r]` — the failed subset in
original order. -/
def extractFailed {α : Type} (batch : List α) (failures : List Bool) : List α :=
  ((batch.zip failures).filter (fun p => p.2 = true)).map (fun p => p.1)

/-- `send_batch` (lines 122–153): returns the final
`(total_sent, record_batch)` pair.  An empty batch returns
immediately; a transport exception leaves both fields unchanged; a
response with failures resubmits the failed subset; a clean response
adds the batch size to `total_sent` and clears the batch. -/
def send_batch {α : Type} : List PutOutcome → List α → ℕ → ℕ × List α
  | _, [], total => (total, [])
  | [], batch, total => (total, batch)
  | .exn :: _, batch, total => (total, batch)
  | .ok fl :: rest, batch, total =>
    if 0 < fl.count true then
      let failed := extractFailed batch fl
      if failed.isEmpty then (total + batch.length, [])
      else send_batch rest failed total
    else (total + batch.length, [])

/-- The successive batches `send_batch` hands to `put_records`. -/
def sendAttempts {α : Type} : List PutOutcome → List α → List (List α)
  | _, [] => []
  | [], batch => [batch]
  | .exn :: _, batch => [batch]
  | .ok fl :: rest, batch =>
    if 0 < fl.count true then
      let failed := extractFailed batch fl
      if failed.isEmpty then [batch] else batch :: sendAttempts rest failed
    else [batch]

/-! ## Record Processor: sentiment (consumer, lines 54–91)

TextBlob's polarity is an external collaborator; the analysis is a
function of the polarity value `text_sentiment` and the star rating. -/

inductive Sentiment : Type
  | negative
  | neutral
  | positive
deriving DecidableEq

structure SentimentResult : Type where
  final : Sentiment
  text_score : ℚ
  star_based : Sentiment
  confidence : ℚ
deriving DecidableEq

/-- `analyze_review_sentiment` (lines 54–91).  The source's conflict
branch (lines 80–84) is kept verbatim: both arms yield the star-based
bucket. -/
def analyze_review_sentiment (text_sentiment : ℚ) (stars : ℚ) : SentimentResult :=
  let expected_sentiment : Sentiment :=
    if stars ≤ 2 then .negative
    else if stars = 3 then .neutral
    else .positive
  let text_based : Sentiment :=
    if text_sentiment > 1/10 then .positive
    else if text_sentiment < -(1/10) then .negative
    else .neutral
  let final_sentiment :=
    if expected_sentiment = text_based then expected_sentiment else expected_sentiment
  { final := final_sentiment
    text_score := text_sentiment
    star_based := expected_sentiment
    confidence := |text_sentiment| }

/-! ## Record Processor: tokenization (consumer, lines 37–52) -/

/-- `str.lower` on the ASCII range (the regex of line 40 only ever
keeps ASCII letters afterwards). -/
def lowerChar (c : Char) : Char :=
  if 'A' ≤ c ∧ c ≤ 'Z' then Char.ofNat (c.toNat + 32) else c

/-- An ASCII letter, the class kept by the regex `[^a-zA-Z\s]` of
line 40 (besides whitespace). -/
def isAlphaChar (c : Char) : Bool :=
  decide (('a' ≤ c ∧ c ≤ 'z') ∨ ('A' ≤ c ∧ c ≤ 'Z'))

/-- Line 40: `re.sub(r'[^a-zA-Z\s]', '', text.lower())`. -/
def cleanText (cs : List Char) : List Char :=
  (cs.map lowerChar).filter (fun c => isAlphaChar c || isSpaceChar c)

/-- Python's `str.split()`: split on whitespace runs, no empty
tokens.  The first argument accumulates the current token reversed. -/
def splitWsAux : List Char → List Char → List (List Char)
  | [], cur => if cur.isEmpty then [] else [cur.reverse]
  | c :: cs, cur =>
    if isSpaceChar c then
      if cur.isEmpty then splitWsAux cs [] else cur.reverse :: splitWsAux cs []
    else splitWsAux cs (c :: cur)

def splitWs (cs : List Char) : List (List Char) := splitWsAux cs []

/-- The stop-word set of lines 43–47. -/
def stop_words : List String :=
  ["the", "and", "was", "for", "with", "but", "this", "that",
   "have", "had", "were", "been", "their", "would", "there",
   "could", "when", "where", "what", "from", "they", "will",
   "just", "into", "your", "more", "very", "than", "then",
   "them", "some", "only", "also", "which", "about", "after"]

/-- The whitespace-split tokens of the cleaned, lowered text
(`text.split()` on line 49 applied to the line-40 result). -/
def rawTokens (text : String) : List String :=
  (splitWs (cleanText text.data)).map String.mk

/-- `preprocess_text` (lines 37–52). -/
def preprocess_text (text : String) : List String :=
  (rawTokens text).filter (fun w => 3 < w.length ∧ w ∉ stop_words)

/-! ## Aggregator: Counter.most_common (consumer, lines 169–180)

A `collections.Counter` is a dict in key-insertion order;
`most_common(n)` sorts by count descending with a stable sort (CPython
documents `nlargest` as equivalent to a reversed stable sort cut at
`n`), so ties keep first-seen order. -/

/-- `counts[k] += 1` on an insertion-ordered table. -/
def bump {α : Type} [DecidableEq α] (k : α) : List (α × ℕ) → List (α × ℕ)
  | [] => [(k, 1)]
  | (k', n) :: rest => if k' = k then (k', n + 1) :: rest else (k', n) :: bump k rest

/-- `Counter(l)`: fold the stream into the insertion-ordered table. -/
def counter {α : Type} [DecidableEq α] (l : List α) : List (α × ℕ) :=
  l.foldl (fun acc k => bump k acc) []

/-- Stable descending insertion: place `p` after every entry with a
strictly greater count and before the first entry with an equal or
smaller one. -/
def insertDesc {α : Type} (p : α × ℕ) : List (α × ℕ) → List (α × ℕ)
  | [] => [p]
  | q :: qs => if p.2 < q.2 then q :: insertDesc p qs else p :: q :: qs

/-- Stable sort by count descending. -/
def sortDesc {α : Type} : List (α × ℕ) → List (α × ℕ)
  | [] => []
  | p :: ps => insertDesc p (sortDesc ps)

/-- `Counter(l).most_common(n)`. -/
def mostCommon {α : Type} [DecidableEq α] (n : ℕ) (l : List α) : List (α × ℕ) :=
  (sortDesc (counter l)).take n

/-! ## Window Store and shared state (consumer, lines 11–34, 93–167)

`added_at` is the ingestion clock (`datetime.now()` at line 126),
`timestamp` the event time parsed from the record.  Deques are lists
with the head at the left (popleft = drop the head). -/

structure ReviewEntry : Type where
  timestamp : ℚ
  added_at : ℚ
  sentiment : SentimentResult
  stars : ℚ
  business_id : String
deriving DecidableEq

structure WordEntry : Type where
  words : List String
  timestamp : ℚ
  added_at : ℚ
deriving DecidableEq

structure RatingEntry : Type where
  stars : ℚ
  timestamp : ℚ
  added_at : ℚ
deriving DecidableEq

/-- The `stats` dict of lines 22–28; the two distributions are
insertion-ordered `defaultdict(int)` tables. -/
structure Stats : Type where
  total_reviews : ℕ
  total_words : ℕ
  sentiment_distribution : List (Sentiment × ℕ)
  rating_distribution : List (ℤ × ℕ)
  avg_review_length : ℚ
deriving DecidableEq

/-- The shared mutable state of `YelpReviewStreamProcessor`. -/
structure ProcState : Type where
  stats : Stats
  business_mentions : List (String × ℕ)
  review_window : List ReviewEntry
  word_window : List WordEntry
  rating_window : List RatingEntry
deriving DecidableEq

def initState : ProcState :=
  { stats := { total_reviews := 0, total_words := 0, sentiment_distribution := [],
               rating_distribution := [], avg_review_length := 0 }
    business_mentions := []
    review_window := []
    word_window := []
    rating_window := [] }

/-- `window_size = 300` (line 14). -/
def window_size : ℚ := 300

/-- The eviction loop of lines 165–167: pop stale heads while the
head's `added_at` is before `current_time - window_size`. -/
def cleanWindow {α : Type} (addedAt : α → ℚ) (current_time : ℚ) (w : List α) : List α :=
  w.dropWhile (fun e => addedAt e < current_time - window_size)

/-- `clean_windows` (lines 160–167): evict from all three windows. -/
def clean_windows (current_time : ℚ) (s : ProcState) : ProcState :=
  { s with
    review_window := cleanWindow ReviewEntry.added_at current_time s.review_window
    word_window := cleanWindow WordEntry.added_at current_time s.word_window
    rating_window := cleanWindow RatingEntry.added_at current_time s.rating_window }

/-! ## Record decoding (consumer, lines 93–158)

`record.Data` is a JSON text; a failed `json.loads` is `none`, a
parsed object is its key/value list.  `float` on a string and
`datetime.fromisoformat` are external collaborators passed as
`floatP` / `isoP`. -/

inductive JVal : Type
  | jstr (s : String)
  | jnum (q : ℚ)
  | jbool (b : Bool)
  | jnull
deriving DecidableEq

/-- The decoded payload: `none` when `json.loads` raises. -/
abbrev RawData : Type := Option (List (String × JVal))

/-- `data.get(k)` on the parsed object. -/
def dictGet (k : String) : List (String × JVal) → Option JVal
  | [] => none
  | (k', v) :: rest => if k' = k then some v else dictGet k rest

/-- Python `float(v)` on a JSON value (`floatP` decides which strings
convert). -/
def pyFloat (floatP : String → Option ℚ) : JVal → Option ℚ
  | .jnum q => some q
  | .jbool b => some (if b then 1 else 0)
  | .jstr s => floatP s
  | .jnull => none

/-- Python `int(q)`: truncation toward zero. -/
def pyInt (q : ℚ) : ℤ := if 0 ≤ q then q.floor else -((-q).floor)

/-- `data.get('text', '')` (line 100); a non-string value raises later
at `text.lower()` inside `preprocess_text`, before any state update,
so it is folded into the parse phase. -/
def getTextField (data : List (String × JVal)) : Option String :=
  match dictGet "text" data with
  | none => some ""
  | some (.jstr s) => some s
  | some _ => none

/-- `float(data.get('stars', 0))` (line 101). -/
def getStarsField (floatP : String → Option ℚ) (data : List (String × JVal)) : Option ℚ :=
  pyFloat floatP ((dictGet "stars" data).getD (.jnum 0))

/-- `data.get('business_id', '')` (line 102); non-string entity ids
(which Python would tolerate as dict keys) are not modelled. -/
def getBusinessField (data : List (String × JVal)) : String :=
  match dictGet "business_id" data with
  | some (.jstr s) => s
  | _ => ""

/-- `datetime.fromisoformat(data['timestamp'])` (line 103): a missing
key raises KeyError, a non-string raises TypeError, and `isoP` decides
which strings parse. -/
def getTimeField (isoP : String → Option ℚ) (data : List (String × JVal)) : Option ℚ :=
  match dictGet "timestamp" data with
  | some (.jstr s) => isoP s
  | _ => none

/-- The fallible phase of `process_record` (lines 96–103): decode and
extract `(text, stars, business_id, timestamp)`.  Every failure
happens here, before the first state mutation of line 114. -/
def parseFields (floatP isoP : String → Option ℚ) (r : RawData) :
    Option (String × ℚ × String × ℚ) :=
  match r with
  | none => none
  | some data =>
    match getTextField data, getStarsField floatP data, getTimeField isoP data with
    | some text, some stars, some ts => some (text, stars, getBusinessField data, ts)
    | _, _, _ => none

/-- `process_record` (lines 93–158): parse, derive features, then
update statistics, mention table and the three windows under the lock,
and finally evict stale window heads (`clean_windows(current_time)`).
`pol` is TextBlob's polarity, `now` the ingestion clock. -/
def process_record (pol : String → ℚ) (floatP isoP : String → Option ℚ)
    (now : ℚ) (s : ProcState) (r : RawData) : ProcState :=
  match parseFields floatP isoP r with
  | none => s
  | some (review_text, stars, business_id, timestamp) =>
    let words := preprocess_text review_text
    let sentiment_result := analyze_review_sentiment (pol review_text) stars
    let total_reviews := s.stats.total_reviews + 1
    let total_words := s.stats.total_words + words.length
    let stats : Stats :=
      { total_reviews := total_reviews
        total_words := total_words
        sentiment_distribution := bump sentiment_result.final s.stats.sentiment_distribution
        rating_distribution := bump (pyInt stars) s.stats.rating_distribution
        avg_review_length :=
          if 0 < total_reviews then (total_words : ℚ) / (total_reviews : ℚ)
          else s.stats.avg_review_length }
    let s' : ProcState :=
      { stats := stats
        business_mentions :=
          if business_id ≠ "" then bump business_id s.business_mentions
          else s.business_mentions
        review_window := s.review_window ++
          [{ timestamp := timestamp, added_at := now, sentiment := sentiment_result,
             stars := stars, business_id := business_id }]
        word_window := s.word_window ++
          [{ words := words, timestamp := timestamp, added_at := now }]
        rating_window := s.rating_window ++
          [{ stars := stars, timestamp := timestamp, added_at := now }] }
    clean_windows now s'

/-! ## Aggregator snapshots (consumer, lines 169–198) -/

/-- `get_trending_words` (lines 169–175). -/
def get_trending_words (top_n : ℕ) (s : ProcState) : List (String × ℕ) :=
  mostCommon top_n (s.word_window.map WordEntry.words).flatten

/-- `get_trending_businesses` (lines 177–180). -/
def get_trending_businesses (top_n : ℕ) (s : ProcState) : List (String × ℕ) :=
  mostCommon top_n ((s.review_window.filter (fun r => r.business_id ≠ "")).map
    ReviewEntry.business_id)

/-! ## Shard Poller (consumer, lines 270–362)

`process_shard` fetches with the shard iterator; each fetch either
returns records plus the presence of a next iterator, or raises, after
which the loop re-acquires an iterator (`LATEST`) and only stops this
shard when that re-acquisition also raises.  Each partition's loop
reads nothing but its own iterator and fetch results, so a partition
is a function of its own fetch oracle; `consume_stream` runs one such
loop per shard. -/

inductive FetchStep : Type
  | recs (rs : List RawData) (hasNext : Bool)
  | err (reacquired : Bool)
deriving DecidableEq

inductive ShardStatus : Type
  | closed
  | failed
  | draining
deriving DecidableEq

/-- The loop of `process_shard` (lines 286–328), accumulating the
records handed to `process_record` in fetch order.  `draining` marks
an oracle that ends with the loop still live. -/
def runShard : List FetchStep → List RawData → ShardStatus × List RawData
  | [], acc => (.draining, acc)
  | .recs rs true :: rest, acc => runShard rest (acc ++ rs)
  | .recs rs false :: _, acc => (.closed, acc ++ rs)
  | .err true :: rest, acc => runShard rest acc
  | .err false :: _, acc => (.failed, acc)

/-- `consume_stream` (lines 333–362): one poller per shard, each
driven by its own fetch oracle. -/
def consume_stream (oracles : List (List FetchStep)) : List (ShardStatus × List RawData) :=
  oracles.map (fun o => runShard o [])

/-- Folding a partition's fetched records into the shared state in
fetch order (line 302–303). -/
def applyRecords (pol : String → ℚ) (floatP isoP : String → Option ℚ)
    (now : ℚ) (s : ProcState) (rs : List RawData) : ProcState :=
  rs.foldl (fun st r => process_record pol floatP isoP now st r) s

/-! ## Ingestion sequences (for the eviction invariant) -/

/-- A sequence of ingestions: `process_record` applied at successive
clock readings. -/
def runIngest (pol : String → ℚ) (floatP isoP : String → Option ℚ)
    (apps : List (ℚ × RawData)) (s : ProcState) : ProcState :=
  apps.foldl (fun st a => process_record pol floatP isoP a.1 st a.2) s

/-- A window's entries are in ingestion-clock order. -/
def windowSorted {α : Type} (addedAt : α → ℚ) (w : List α) : Prop :=
  w.Pairwise (fun a b => addedAt a ≤ addedAt b)

/-- Every entry of the window was ingested no later than `t`. -/
def windowLE {α : Type} (addedAt : α → ℚ) (t : ℚ) (w : List α) : Prop :=
  ∀ e ∈ w, addedAt e ≤ t

/-- The three windows are ordered and bounded by the clock `t`. -/
def ingestInv (t : ℚ) (s : ProcState) : Prop :=
  (windowSorted ReviewEntry.added_at s.review_window ∧
   windowSorted WordEntry.added_at s.word_window ∧
   windowSorted RatingEntry.added_at s.rating_window) ∧
  (windowLE ReviewEntry.added_at t s.review_window ∧
   windowLE WordEntry.added_at t s.word_window ∧
   windowLE RatingEntry.added_at t s.rating_window)

/-- A well-formed review payload, used to exhibit concrete states. -/
def demoRecord : RawData :=
  some [("text", .jstr "wonderful experience indeed"), ("stars", .jnum 5),
        ("business_id", .jstr "b1"), ("timestamp", .jstr "t")]

/-- The state after ingesting `demoRecord` once at clock 0. -/
def demoState : ProcState :=
  process_record (fun _ => 0) (fun _ => none) (fun _ => some 0) 0 initState demoRecord

/-! # Helper lemmas -/

theorem splitLines_append (a b : List Char) :
    splitLines (a ++ b) =
      ((splitLines a).1 ++ (splitLines ((splitLines a).2 ++ b)).1,
       (splitLines ((splitLines a).2 ++ b)).2) := by
  induction a with
  | nil => simp [splitLines]
  | cons c a ih =>
    rw [List.cons_append, splitLines, splitLines, ih]
    by_cases hc : c = '\n'
    · simp [hc]
    · simp only [if_neg hc]
      cases h : (splitLines a).1 with
      | nil =>
        simp only [h, List.nil_append]
        rw [show ((c :: (splitLines a).2) ++ b) = c :: ((splitLines a).2 ++ b) from rfl,
          splitLines]
        simp [if_neg hc]
      | cons l ls => simp [h]

/-- A trailing segment never contains a newline. -/
theorem splitLines_sndNoNl (cs : List Char) : '\n' ∉ (splitLines cs).2 := by
  induction cs with
  | nil => simp [splitLines]
  | cons c cs ih =>
    by_cases hc : c = '\n'
    · subst hc; simpa [splitLines] using ih
    · simp only [splitLines, if_neg hc]
      cases h : (splitLines cs).1 with
      | nil =>
        simp only [List.mem_cons]
        rintro (rfl | hm)
        · exact hc rfl
        · exact ih hm
      | cons l ls => simpa [h] using ih

/-- A newline-free string is all trailing segment. -/
theorem splitLines_of_noNl (cs : List Char) (h : '\n' ∉ cs) :
    splitLines cs = ([], cs) := by
  induction cs with
  | nil => simp [splitLines]
  | cons c cs ih =>
    simp only [List.mem_cons, not_or] at h
    have hc : ¬ c = '\n' := fun hc => h.1 hc.symm
    rw [splitLines, ih h.2]
    simp [hc]

/-- Running the chunk loop from a newline-free buffer is one split of
the concatenation. -/
theorem runChunks_eq (chunks : List (List Char)) :
    ∀ buf : List Char, '\n' ∉ buf →
      runChunks buf chunks = splitLines (buf ++ chunks.flatten) := by
  induction chunks with
  | nil =>
    intro buf h
    simp [runChunks, splitLines_of_noNl buf h]
  | cons ch rest ih =>
    intro buf h
    rw [runChunks, ih (splitLines (buf ++ ch)).2 (splitLines_sndNoNl (buf ++ ch)),
      List.flatten_cons, ← List.append_assoc, splitLines_append (buf ++ ch) rest.flatten]

/-- Reading in chunks from an empty buffer equals the unsplit read of
the concatenated content (character level). -/
theorem runChunks_flatten (chunks : List (List Char)) :
    runChunks [] chunks = runChunks [] [chunks.flatten] := by
  rw [runChunks_eq chunks [] (by simp), runChunks_eq [chunks.flatten] [] (by simp)]
  simp


/-- The failed subset honours the original order: it is a sublist of
the submitted batch. -/
theorem extractFailed_sublist {α : Type} :
    ∀ (batch : List α) (fl : List Bool), List.Sublist (extractFailed batch fl) batch := by
  intro batch
  induction batch with
  | nil => intro fl; simp [extractFailed]
  | cons a bs ih =>
    intro fl
    cases fl with
    | nil => simp [extractFailed]
    | cons f fs =>
      cases f
      · simpa [extractFailed] using (ih fs).cons a
      · simpa [extractFailed] using (ih fs).cons₂ a

/-! # Claim theorems -/

/-- Claim C4 (corrected, amended part): at the character level — that
is, whenever the physical chunk boundaries fall on character
boundaries — the Record Source Reader emits exactly the same record
sequence for every partition of the content into chunks as for a
single unsplit read, for every per-line parse function. -/
theorem claim_C4_amended {R : Type} (parse : List Char → Option R)
    (chunks : List (List Char)) :
    emitRecords parse chunks = emitRecords parse [chunks.flatten] := by
  unfold emitRecords
  rw [runChunks_flatten]

/-- Claim C4 (counterexample): a split at a byte offset inside the
two-byte character U+00E9 makes the per-chunk `errors=ignore` decode
drop the character, so the chunked read of the bytes `C3 A9 0A`
emits different records than the unsplit read of the same content. -/
theorem claim_C4_counterexample :
    ([[195], [169, 10]] : List (List ℕ)).flatten = [195, 169, 10] ∧
    emitRecordsBytes (fun l => some (String.mk l)) [[195], [169, 10]] ≠
      emitRecordsBytes (fun l => some (String.mk l)) [[195, 169, 10]] := by
  constructor
  · rfl
  · decide

/-- Claim C9: if `put_records` raises, the pending batch and
`total_sent` are both left unchanged, so the same records go out on
the next attempt. -/
theorem claim_C9 {α : Type} (rest : List PutOutcome) (batch : List α) (total : ℕ) :
    send_batch (PutOutcome.exn :: rest) batch total = (total, batch) := by
  cases batch <;> rfl

/-- Claim C1 (code-bug evidence): a batch of B = 2 records in which
record 1 fails the first attempt and succeeds on the retry.  Every
record is eventually delivered, yet `total_sent` grows by 1, not by
B = 2: the recursive-retry path returns before the counter update, so
first-attempt successes are never counted. -/
theorem claim_C1_divergence :
    send_batch [PutOutcome.ok [false, true], PutOutcome.ok [false]] [(0 : ℕ), 1] 0 =
      (1, []) ∧
    (send_batch [PutOutcome.ok [false, true], PutOutcome.ok [false]] [(0 : ℕ), 1] 0).1 ≠
      2 := by
  constructor <;> decide

/-- Claim C6: when a send reports per-record failures, exactly the
records marked failed are extracted in their original relative order
(a sublist of the batch), resubmitted as the next batch, and the loop
repeats; a response with zero failures ends the resubmission loop. -/
theorem claim_C6 {α : Type} (batch : List α) (fl : List Bool) (rest : List PutOutcome)
    (total : ℕ) (hb : batch ≠ []) (hf : 0 < fl.count true)
    (hx : extractFailed batch fl ≠ []) :
    List.Sublist (extractFailed batch fl) batch ∧
    sendAttempts (.ok fl :: rest) batch =
      batch :: sendAttempts rest (extractFailed batch fl) ∧
    send_batch (.ok fl :: rest) batch total =
      send_batch rest (extractFailed batch fl) total ∧
    (∀ fl2 : List Bool, fl2.count true = 0 →
      sendAttempts (.ok fl2 :: rest) batch = [batch]) := by
  have hxe : (extractFailed batch fl).isEmpty = false := by
    simpa [List.isEmpty_iff] using hx
  obtain ⟨b, bs, rfl⟩ : ∃ b bs, batch = b :: bs := by
    cases batch with
    | nil => exact absurd rfl hb
    | cons b bs => exact ⟨b, bs, rfl⟩
  refine ⟨extractFailed_sublist _ _, ?_, ?_, ?_⟩
  · rw [sendAttempts] <;> simp [hf, hxe]
  · rw [send_batch] <;> simp [hf, hxe]
  · intro fl2 h2
    rw [sendAttempts] <;> simp [h2]

/-- Claim C6 witness: a concrete batch of two records whose second is
reported failed; the failed subset [2] is resubmitted and the clean
retry ends the loop. -/
theorem claim_C6_witness :
    ([(1 : ℕ), 2] ≠ [] ∧ 0 < ([false, true] : List Bool).count true ∧
      extractFailed [(1 : ℕ), 2] [false, true] ≠ []) ∧
    (List.Sublist (extractFailed [(1 : ℕ), 2] [false, true]) [1, 2] ∧
      sendAttempts [.ok [false, true], .ok [false]] [(1 : ℕ), 2] =
        [1, 2] :: sendAttempts [PutOutcome.ok [false]] (extractFailed [(1 : ℕ), 2] [false, true]) ∧
      send_batch [.ok [false, true], .ok [false]] [(1 : ℕ), 2] 0 =
        send_batch [PutOutcome.ok [false]] (extractFailed [(1 : ℕ), 2] [false, true]) 0 ∧
      (∀ fl2 : List Bool, fl2.count true = 0 →
        sendAttempts (.ok fl2 :: [PutOutcome.ok [false]]) [(1 : ℕ), 2] = [[1, 2]])) :=
  ⟨⟨by decide, by decide, by decide⟩,
    claim_C6 [1, 2] [false, true] [PutOutcome.ok [false]] 0 (by decide) (by decide) (by decide)⟩

/-- Claim C3: the final sentiment label is a pure function of the star
rating alone — at most 2 stars negative, exactly 3 neutral, above 3
(in particular 4 and 5) positive — identical for every text polarity;
the polarity reaches only the diagnostic fields `text_score` and
`confidence`, and the final label always equals the star bucket. -/
theorem claim_C3 (text_sentiment stars : ℚ) :
    (analyze_review_sentiment text_sentiment stars).final =
      (if stars ≤ 2 then Sentiment.negative
       else if stars = 3 then Sentiment.neutral
       else Sentiment.positive) ∧
    (analyze_review_sentiment text_sentiment stars).final =
      (analyze_review_sentiment text_sentiment stars).star_based ∧
    (analyze_review_sentiment text_sentiment stars).text_score = text_sentiment ∧
    (analyze_review_sentiment text_sentiment stars).confidence = |text_sentiment| := by
  refine ⟨?_, ?_, rfl, rfl⟩ <;> simp [analyze_review_sentiment]

/-- Membership in a stable descending insertion. -/
theorem mem_insertDesc {α : Type} (p x : α × ℕ) :
    ∀ L : List (α × ℕ), x ∈ insertDesc p L ↔ x = p ∨ x ∈ L := by
  intro L
  induction L with
  | nil => simp [insertDesc]
  | cons q qs ih =>
    by_cases h : p.2 < q.2
    · simp only [insertDesc, if_pos h, List.mem_cons, ih]
      tauto
    · simp only [insertDesc, if_neg h, List.mem_cons]

/-- Stable descending insertion produces a permutation. -/
theorem insertDesc_perm {α : Type} (p : α × ℕ) :
    ∀ L : List (α × ℕ), List.Perm (insertDesc p L) (p :: L) := by
  intro L
  induction L with
  | nil => simp [insertDesc]
  | cons q qs ih =>
    by_cases h : p.2 < q.2
    · rw [insertDesc, if_pos h]
      exact (ih.cons q).trans (List.Perm.swap p q qs)
    · rw [insertDesc, if_neg h]

/-- `sortDesc` permutes the table. -/
theorem sortDesc_perm {α : Type} :
    ∀ L : List (α × ℕ), List.Perm (sortDesc L) L := by
  intro L
  induction L with
  | nil => simp [sortDesc]
  | cons p ps ih =>
    exact (insertDesc_perm p (sortDesc ps)).trans (ih.cons p)

/-- Inserting below the head of a descending list keeps it
descending. -/
theorem insertDesc_pairwise {α : Type} (p : α × ℕ) :
    ∀ L : List (α × ℕ), L.Pairwise (fun x y => y.2 ≤ x.2) →
      (insertDesc p L).Pairwise (fun x y => y.2 ≤ x.2) := by
  intro L
  induction L with
  | nil => simp [insertDesc]
  | cons q qs ih =>
    intro hL
    rw [List.pairwise_cons] at hL
    by_cases h : p.2 < q.2
    · rw [insertDesc, if_pos h]
      rw [List.pairwise_cons]
      refine ⟨?_, ih hL.2⟩
      intro x hx
      rcases (mem_insertDesc p x qs).mp hx with rfl | hx
      · exact le_of_lt h
      · exact hL.1 x hx
    · rw [insertDesc, if_neg h]
      rw [List.pairwise_cons]
      refine ⟨?_, List.pairwise_cons.mpr hL⟩
      intro x hx
      rcases List.mem_cons.mp hx with rfl | hx
      · exact le_of_not_lt h
      · exact le_trans (hL.1 x hx) (le_of_not_lt h)

/-- `sortDesc` orders the table by count, largest first. -/
theorem sortDesc_pairwise {α : Type} :
    ∀ L : List (α × ℕ), (sortDesc L).Pairwise (fun x y => y.2 ≤ x.2) := by
  intro L
  induction L with
  | nil => simp [sortDesc]
  | cons p ps ih => exact insertDesc_pairwise p (sortDesc ps) ih

/-- Stability of the insertion: the entries of any one count level are
untouched except for `p` arriving at the front of its level. -/
theorem insertDesc_filter {α : Type} (p : α × ℕ) (n : ℕ) :
    ∀ L : List (α × ℕ),
      (insertDesc p L).filter (fun q => q.2 = n) =
        if p.2 = n then p :: L.filter (fun q => q.2 = n)
        else L.filter (fun q => q.2 = n) := by
  intro L
  induction L with
  | nil =>
    by_cases h : p.2 = n <;> simp [insertDesc, List.filter, h]
  | cons q qs ih =>
    by_cases h : p.2 < q.2
    · rw [insertDesc, if_pos h]
      by_cases hq : q.2 = n
      · have hp : ¬ p.2 = n := by omega
        simp only [List.filter_cons, ih]
        simp [hp, hq]
      · simp only [List.filter_cons, ih]
        by_cases hp : p.2 = n <;> simp [hp, hq]
    · rw [insertDesc, if_neg h]
      by_cases hp : p.2 = n <;> simp [List.filter_cons, hp]

/-- Stability of `sortDesc`: within one count level the first-seen
order of the table is preserved exactly. -/
theorem sortDesc_filter_stable {α : Type} (n : ℕ) :
    ∀ L : List (α × ℕ),
      (sortDesc L).filter (fun q => q.2 = n) = L.filter (fun q => q.2 = n) := by
  intro L
  induction L with
  | nil => simp [sortDesc]
  | cons p ps ih =>
    rw [sortDesc, insertDesc_filter p n (sortDesc ps), ih]
    by_cases hp : p.2 = n <;> simp [List.filter_cons, hp]

/-- Claim C5: the trending tables order entries by count descending;
ties among equal counts keep the table's first-seen order exactly
(the sort permutes the table and leaves each count level untouched);
and on the window holding counts a:2, b:2, c:1 first seen in the
order a, b, c, the top-2 is [a, b].  The aggregator is a pure
function of the window, so repeated calls agree definitionally. -/
theorem claim_C5 :
    (∀ (s : ProcState) (k : ℕ),
      (get_trending_words k s).Pairwise (fun x y => y.2 ≤ x.2)) ∧
    (∀ (s : ProcState) (k : ℕ),
      (get_trending_businesses k s).Pairwise (fun x y => y.2 ≤ x.2)) ∧
    (∀ (ws : List String), List.Perm (sortDesc (counter ws)) (counter ws)) ∧
    (∀ (ws : List String) (n : ℕ),
      (sortDesc (counter ws)).filter (fun q => q.2 = n) =
        (counter ws).filter (fun q => q.2 = n)) ∧
    get_trending_words 2
      { initState with word_window :=
          [{ words := ["a", "b", "c"], timestamp := 0, added_at := 0 },
           { words := ["a", "b"], timestamp := 0, added_at := 0 }] } =
      [("a", 2), ("b", 2)] := by
  refine ⟨?_, ?_, ?_, ?_, ?_⟩
  · intro s k
    exact (sortDesc_pairwise _).sublist (List.take_sublist _ _)
  · intro s k
    exact (sortDesc_pairwise _).sublist (List.take_sublist _ _)
  · intro ws
    exact sortDesc_perm (counter ws)
  · intro ws n
    exact sortDesc_filter_stable n (counter ws)
  · decide

/-- `Char.ofNat` of a valid scalar value decodes back. -/
theorem toNat_charOfNat (n : ℕ) (hv : Nat.isValidChar n) : (Char.ofNat n).toNat = n := by
  unfold Char.ofNat
  rw [dif_pos hv]
  unfold Char.ofNatAux Char.toNat
  exact BitVec.toNat_ofNatLt _ _

/-- Character order is the order of scalar values. -/
theorem char_le_toNat {a b : Char} : a ≤ b ↔ a.toNat ≤ b.toNat := by
  rw [Char.le_def, UInt32.le_def]
  rfl

/-- A lower-cased character that is still a letter is a lower-case
letter. -/
theorem lowerChar_lower (c : Char) (h : isAlphaChar (lowerChar c) = true) :
    'a' ≤ lowerChar c ∧ lowerChar c ≤ 'z' := by
  unfold lowerChar at *
  by_cases hc : 'A' ≤ c ∧ c ≤ 'Z'
  · rw [if_pos hc] at *
    obtain ⟨h1, h2⟩ := hc
    rw [char_le_toNat] at h1 h2
    have n1 : (65 : ℕ) ≤ c.toNat := h1
    have n2 : c.toNat ≤ (90 : ℕ) := h2
    have hv : Nat.isValidChar (c.toNat + 32) := by left; omega
    rw [char_le_toNat, char_le_toNat, toNat_charOfNat _ hv]
    constructor
    · show (97 : ℕ) ≤ _
      omega
    · show _ ≤ (122 : ℕ)
      omega
  · rw [if_neg hc] at *
    simp only [isAlphaChar, decide_eq_true_eq] at h
    rcases h with h | h
    · exact h
    · exact absurd h hc

/-- Every non-space character surviving the clean of line 40 is a
lower-case letter. -/
theorem cleanText_lower (cs : List Char) :
    ∀ c ∈ cleanText cs, isSpaceChar c = false → 'a' ≤ c ∧ c ≤ 'z' := by
  intro c hc hsp
  unfold cleanText at hc
  have hf := List.mem_filter.mp hc
  have halpha : isAlphaChar c = true := by
    rcases Bool.or_eq_true_iff.mp hf.2 with h | h
    · exact h
    · rw [hsp] at h; cases h
  obtain ⟨c0, _, rfl⟩ := List.mem_map.mp hf.1
  exact lowerChar_lower c0 halpha

/-- Every character of every token produced by the whitespace split
satisfies any predicate holding on the non-space input characters
(and on the accumulated current token). -/
theorem splitWsAux_chars (P : Char → Prop) :
    ∀ (cs cur : List Char), (∀ c ∈ cur, P c) →
      (∀ c ∈ cs, isSpaceChar c = false → P c) →
      ∀ t ∈ splitWsAux cs cur, ∀ c ∈ t, P c := by
  intro cs
  induction cs with
  | nil =>
    intro cur hcur hcs t ht c hc
    rw [splitWsAux] at ht
    by_cases he : cur.isEmpty
    · rw [if_pos he] at ht
      cases ht
    · rw [if_neg he] at ht
      rcases List.mem_singleton.mp ht with rfl
      exact hcur c (List.mem_reverse.mp hc)
  | cons a as ih =>
    intro cur hcur hcs t ht c hc
    rw [splitWsAux] at ht
    by_cases ha : isSpaceChar a = true
    · rw [if_pos ha] at ht
      by_cases he : cur.isEmpty
      · rw [if_pos he] at ht
        exact ih [] (by simp) (fun x hx h => hcs x (List.mem_cons_of_mem a hx) h) t ht c hc
      · rw [if_neg he] at ht
        rcases List.mem_cons.mp ht with rfl | ht2
        · exact hcur c (List.mem_reverse.mp hc)
        · exact ih [] (by simp) (fun x hx h => hcs x (List.mem_cons_of_mem a hx) h) t ht2 c hc
    · rw [if_neg ha] at ht
      refine ih (a :: cur) ?_ (fun x hx h => hcs x (List.mem_cons_of_mem a hx) h) t ht c hc
      intro x hx
      rcases List.mem_cons.mp hx with rfl | hx2
      · exact hcs x (List.mem_cons_self _ _) (Bool.not_eq_true _ ▸ ha)
      · exact hcur x hx2

/-- Claim C8: `preprocess_text` lower-cases, strips non-alphabetic
characters, splits on whitespace, and keeps exactly the tokens that
are longer than 3 and outside the stop-word set, in their original
order: every emitted token obeys the length/stop-word/lower-case-
letter constraints, the output is a sublist of the whitespace-split
token stream, and every surviving token of that stream is emitted. -/
theorem claim_C8 (text : String) :
    (∀ w ∈ preprocess_text text,
      3 < w.length ∧ w ∉ stop_words ∧ ∀ c ∈ w.data, 'a' ≤ c ∧ c ≤ 'z') ∧
    List.Sublist (preprocess_text text) (rawTokens text) ∧
    (∀ w ∈ rawTokens text, 3 < w.length → w ∉ stop_words → w ∈ preprocess_text text) := by
  refine ⟨?_, List.filter_sublist _, ?_⟩
  · intro w hw
    have hw' := List.mem_filter.mp hw
    have hp : 3 < w.length ∧ w ∉ stop_words := by simpa using hw'.2
    refine ⟨hp.1, hp.2, ?_⟩
    obtain ⟨t, ht, rfl⟩ := List.mem_map.mp hw'.1
    intro c hc
    exact splitWsAux_chars (fun c => 'a' ≤ c ∧ c ≤ 'z') (cleanText text.data) []
      (by simp) (cleanText_lower text.data) t ht c hc
  · intro w hw h1 h2
    refine List.mem_filter.mpr ⟨hw, ?_⟩
    simpa using And.intro h1 h2

/-- Claim C8 witness: on the text "Amazing Food and stuff", the token
"amazing" survives every filter and is emitted. -/
theorem claim_C8_witness :
    "amazing" ∈ rawTokens "Amazing Food and stuff" ∧
    3 < ("amazing" : String).length ∧ "amazing" ∉ stop_words ∧
    "amazing" ∈ preprocess_text "Amazing Food and stuff" :=
  ⟨by decide, by decide, by decide,
    (claim_C8 "Amazing Food and stuff").2.2 "amazing" (by decide) (by decide) (by decide)⟩

/-- A record whose fallible phase fails leaves the state untouched
(the exception handler of line 157 fires before any mutation). -/
theorem process_record_of_parse_none (pol : String → ℚ) (floatP isoP : String → Option ℚ)
    (now : ℚ) (s : ProcState) (r : RawData)
    (h : parseFields floatP isoP r = none) :
    process_record pol floatP isoP now s r = s := by
  unfold process_record
  rw [h]

/-- Claim C10: a record with an undecodable payload, a missing
`timestamp` key, or a `stars` value `float` cannot convert, changes
nothing: running totals, all three sliding windows and the business
mention table are exactly as before. -/
theorem claim_C10 (pol : String → ℚ) (floatP isoP : String → Option ℚ) (now : ℚ)
    (s : ProcState) (r : RawData)
    (h : r = none ∨ ∃ data, r = some data ∧
      (dictGet "timestamp" data = none ∨
       ∃ v, dictGet "stars" data = some v ∧ pyFloat floatP v = none)) :
    process_record pol floatP isoP now s r = s := by
  refine process_record_of_parse_none pol floatP isoP now s r ?_
  rcases h with rfl | ⟨data, rfl, h⟩
  · rfl
  · have hred : parseFields floatP isoP (some data) =
        match getTextField data, getStarsField floatP data, getTimeField isoP data with
        | some text, some stars, some ts => some (text, stars, getBusinessField data, ts)
        | _, _, _ => none := rfl
    rcases h with hts | ⟨v, hv, hf⟩
    · have ht : getTimeField isoP data = none := by
        unfold getTimeField
        rw [hts]
      rw [hred, ht]
      cases getTextField data <;> cases getStarsField floatP data <;> rfl
    · have hstars : getStarsField floatP data = none := by
        unfold getStarsField
        rw [hv]
        simpa using hf
      rw [hred, hstars]
      cases getTextField data <;> cases getTimeField isoP data <;> rfl

/-- Claim C10 witness: a payload whose `stars` field is JSON null
(`float(None)` raises) is skipped with no state change. -/
theorem claim_C10_witness :
    process_record (fun _ => 0) (fun _ => none) (fun _ => none) 0 initState
      (some [("stars", JVal.jnull)]) = initState :=
  claim_C10 (fun _ => 0) (fun _ => none) (fun _ => none) 0 initState
    (some [("stars", JVal.jnull)])
    (Or.inr ⟨[("stars", JVal.jnull)], rfl, Or.inr ⟨JVal.jnull, rfl, rfl⟩⟩)

/-- Claim C7: failures are contained at the smallest scope.  (i) A
partition's outcome in `consume_stream` depends only on its own fetch
oracle: replacing another partition's oracle leaves it unchanged.
(ii) A fetch error whose iterator re-acquisition also fails stops only
that partition, as Failed, keeping the records already processed.
(iii) A successful fetch processes its records and continues, reaching
Closed with all records exactly when the log signals no next iterator.
(iv) A record whose processing fails is skipped while the fold over
the fetched records continues with the next record. -/
theorem claim_C7 (pol : String → ℚ) (floatP isoP : String → Option ℚ) (now : ℚ)
    (oracles : List (List FetchStep)) (j i : ℕ) (o2 : List FetchStep) (hij : i ≠ j)
    (s : ProcState) (pre post : List RawData) (bad : RawData)
    (hbad : parseFields floatP isoP bad = none)
    (rest : List FetchStep) (acc : List RawData) :
    (consume_stream (oracles.set j o2))[i]? = (consume_stream oracles)[i]? ∧
    runShard (.err false :: rest) acc = (.failed, acc) ∧
    (∀ (rs : List RawData) (hasNext : Bool),
      runShard (.recs rs hasNext :: rest) acc =
        if hasNext then runShard rest (acc ++ rs) else (.closed, acc ++ rs)) ∧
    applyRecords pol floatP isoP now s (pre ++ bad :: post) =
      applyRecords pol floatP isoP now s (pre ++ post) := by
  refine ⟨?_, rfl, ?_, ?_⟩
  · unfold consume_stream
    rw [List.getElem?_map, List.getElem?_map, List.getElem?_set_ne (Ne.symm hij)]
  · intro rs hasNext
    cases hasNext <;> rfl
  · unfold applyRecords
    rw [List.foldl_append, List.foldl_append, List.foldl_cons,
      process_record_of_parse_none pol floatP isoP now _ bad hbad]

/-- Claim C7 witness: three partitions — partition 2's fetches always
error and its re-acquisition fails, partitions 0 and 1 close normally;
replacing partition 2's oracle does not change partition 0, and an
unparseable record in a fetch batch is skipped. -/
theorem claim_C7_witness :
    (consume_stream ([[.recs [demoRecord] false], [.recs [] false],
        [.err true, .err false]].set 2 [.err false]))[0]? =
      (consume_stream [[.recs [demoRecord] false], [.recs [] false],
        [.err true, .err false]])[0]? ∧
    runShard [.err true, .err false] [] = (.failed, []) ∧
    runShard [.recs [demoRecord] false] [] = (.closed, [demoRecord]) ∧
    applyRecords (fun _ => 0) (fun _ => none) (fun _ => none) 0 initState
        [none, demoRecord] =
      applyRecords (fun _ => 0) (fun _ => none) (fun _ => none) 0 initState
        [demoRecord] := by
  refine ⟨(claim_C7 (fun _ => 0) (fun _ => none) (fun _ => none) 0
    [[.recs [demoRecord] false], [.recs [] false], [.err true, .err false]]
    2 0 [.err false] (by decide) initState [] [demoRecord] none rfl [] []).1,
    rfl, rfl, ?_⟩
  exact (claim_C7 (fun _ => 0) (fun _ => none) (fun _ => none) 0 [] 2 0 [] (by decide)
    initState [] [demoRecord] none rfl [] []).2.2.2

/-- Appending a fresh entry at the current clock keeps the window
ordered. -/
theorem windowSorted_append {α : Type} (addedAt : α → ℚ) (t : ℚ) (w : List α) (x : α)
    (hx : addedAt x = t) (hs : windowSorted addedAt w) (hb : windowLE addedAt t w) :
    windowSorted addedAt (w ++ [x]) := by
  unfold windowSorted at *
  rw [List.pairwise_append]
  refine ⟨hs, List.pairwise_singleton _ _, ?_⟩
  intro a ha b hb'
  rcases List.mem_singleton.mp hb' with rfl
  rw [hx]
  exact hb a ha

/-- Eviction keeps the window ordered. -/
theorem windowSorted_dropWhile {α : Type} (addedAt : α → ℚ) (p : α → Bool) (w : List α)
    (hs : windowSorted addedAt w) : windowSorted addedAt (w.dropWhile p) :=
  hs.sublist (List.dropWhile_sublist p)

/-- The clock bound is monotone and survives append/evict. -/
theorem windowLE_mono {α : Type} (addedAt : α → ℚ) {t t' : ℚ} (h : t ≤ t') (w : List α)
    (hb : windowLE addedAt t w) : windowLE addedAt t' w :=
  fun e he => le_trans (hb e he) h

theorem windowLE_append {α : Type} (addedAt : α → ℚ) (t : ℚ) (w : List α) (x : α)
    (hx : addedAt x ≤ t) (hb : windowLE addedAt t w) : windowLE addedAt t (w ++ [x]) := by
  intro e he
  rcases List.mem_append.mp he with he | he
  · exact hb e he
  · rcases List.mem_singleton.mp he with rfl
    exact hx

theorem windowLE_dropWhile {α : Type} (addedAt : α → ℚ) (t : ℚ) (p : α → Bool) (w : List α)
    (hb : windowLE addedAt t w) : windowLE addedAt t (w.dropWhile p) :=
  fun e he => hb e ((List.dropWhile_sublist p).subset he)

/-- On an ordered window, eviction at clock `t` leaves only entries
ingested within the retention horizon. -/
theorem cleanWindow_ge {α : Type} (addedAt : α → ℚ) (t : ℚ) :
    ∀ w : List α, windowSorted addedAt w →
      ∀ e ∈ cleanWindow addedAt t w, t - window_size ≤ addedAt e := by
  intro w
  induction w with
  | nil => intro _ e he; cases he
  | cons x xs ih =>
    intro hs e he
    have hs' := List.pairwise_cons.mp hs
    rw [cleanWindow, List.dropWhile_cons] at he
    by_cases hx : addedAt x < t - window_size
    · rw [if_pos (by simpa using hx)] at he
      exact ih hs'.2 e he
    · rw [if_neg (by simpa using hx)] at he
      rcases List.mem_cons.mp he with rfl | he2
      · exact le_of_not_lt hx
      · exact le_trans (le_of_not_lt hx) (hs'.1 e he2)

/-- The empty state satisfies the window invariant at every clock. -/
theorem ingestInv_init (t : ℚ) : ingestInv t initState := by
  refine ⟨⟨?_, ?_, ?_⟩, ?_, ?_, ?_⟩ <;> simp [initState, windowSorted, windowLE]

/-- The window invariant is monotone in the clock. -/
theorem ingestInv_mono {t t' : ℚ} (h : t ≤ t') (s : ProcState) (hi : ingestInv t s) :
    ingestInv t' s :=
  ⟨hi.1, windowLE_mono _ h _ hi.2.1, windowLE_mono _ h _ hi.2.2.1,
    windowLE_mono _ h _ hi.2.2.2⟩

/-- Append-and-evict (the locked block of `process_record`) preserves
the window invariant at the current clock, whatever happens to the
scalar statistics. -/
theorem ingestInv_append_clean (t : ℚ) (s : ProcState) (re : ReviewEntry)
    (we : WordEntry) (ge : RatingEntry)
    (hre : re.added_at = t) (hwe : we.added_at = t) (hge : ge.added_at = t)
    (stats2 : Stats) (bm2 : List (String × ℕ)) (h : ingestInv t s) :
    ingestInv t (clean_windows t
      { stats := stats2, business_mentions := bm2,
        review_window := s.review_window ++ [re],
        word_window := s.word_window ++ [we],
        rating_window := s.rating_window ++ [ge] }) := by
  obtain ⟨⟨s1, s2, s3⟩, b1, b2, b3⟩ := h
  exact ⟨⟨windowSorted_dropWhile _ _ _ (windowSorted_append _ t _ re hre s1 b1),
      windowSorted_dropWhile _ _ _ (windowSorted_append _ t _ we hwe s2 b2),
      windowSorted_dropWhile _ _ _ (windowSorted_append _ t _ ge hge s3 b3)⟩,
    windowLE_dropWhile _ t _ _ (windowLE_append _ t _ re (le_of_eq hre) b1),
    windowLE_dropWhile _ t _ _ (windowLE_append _ t _ we (le_of_eq hwe) b2),
    windowLE_dropWhile _ t _ _ (windowLE_append _ t _ ge (le_of_eq hge) b3)⟩

/-- One ingestion step at a clock not before the current bound
preserves the window invariant at the step's clock. -/
theorem process_record_inv (pol : String → ℚ) (floatP isoP : String → Option ℚ)
    {t0 : ℚ} (t : ℚ) (ht : t0 ≤ t) (s : ProcState) (r : RawData)
    (h : ingestInv t0 s) : ingestInv t (process_record pol floatP isoP t s r) := by
  cases hp : parseFields floatP isoP r with
  | none =>
    rw [process_record_of_parse_none _ _ _ _ _ _ hp]
    exact ingestInv_mono ht s h
  | some p =>
    obtain ⟨text, stars, biz, ts⟩ := p
    unfold process_record
    rw [hp]
    exact ingestInv_append_clean t s _ _ _ rfl rfl rfl _ _ (ingestInv_mono ht s h)

/-- Folding ingestions whose clocks rise preserves the invariant up to
the last clock. -/
theorem runIngest_inv (pol : String → ℚ) (floatP isoP : String → Option ℚ) :
    ∀ (apps : List (ℚ × RawData)) (s : ProcState) (t0 : ℚ),
      ingestInv t0 s → List.Sorted (· ≤ ·) (t0 :: apps.map Prod.fst) →
      ingestInv ((apps.map Prod.fst).getLastD t0) (runIngest pol floatP isoP apps s) := by
  intro apps
  induction apps with
  | nil =>
    intro s t0 h _
    simpa [runIngest] using h
  | cons a rest ih =>
    intro s t0 h hsorted
    simp only [List.map_cons] at hsorted
    have hp := List.pairwise_cons.mp hsorted
    have ht0a : t0 ≤ a.1 := hp.1 a.1 (List.mem_cons_self _ _)
    have h1 : ingestInv a.1 (process_record pol floatP isoP a.1 s a.2) :=
      process_record_inv pol floatP isoP a.1 ht0a s a.2 h
    have hres := ih (process_record pol floatP isoP a.1 s a.2) a.1 h1 hp.2
    simp only [runIngest, List.foldl_cons, List.map_cons, List.getLastD_cons]
    exact hres

/-- The default-headed last element of a list is the head default or a
member. -/
theorem getLastD_mem {α : Type} : ∀ (l : List α) (d : α), l.getLastD d ∈ d :: l := by
  intro l
  induction l with
  | nil => intro d; simp
  | cons x xs ih =>
    intro d
    rw [List.getLastD_cons]
    rcases List.mem_cons.mp (ih x) with h | h
    · rw [h]
      exact List.mem_cons.mpr (Or.inr (List.mem_cons_self _ _))
    · exact List.mem_cons.mpr (Or.inr (List.mem_cons_of_mem x h))

/-- A sorted list stays sorted with its own head repeated in front. -/
theorem sorted_headI_cons {l : List ℚ} (h : List.Sorted (· ≤ ·) l) :
    List.Sorted (· ≤ ·) (l.headI :: l) := by
  cases l with
  | nil => simp
  | cons x xs =>
    refine List.Pairwise.cons ?_ h
    intro y hy
    rcases List.mem_cons.mp hy with rfl | hy2
    · exact le_refl _
    · exact (List.pairwise_cons.mp h).1 y hy2

/-- Claim C2 (counterexample): eviction runs only inside Append
(`process_record` line 149); no snapshot path evicts.  After a single
ingestion at clock 0, a trending-words snapshot at query time 1000 —
far beyond the 300-second horizon — still reflects the entry added at
clock 0, whose `added_at = 0` is older than `1000 - window_size`. -/
theorem claim_C2_counterexample :
    demoState.word_window.map WordEntry.added_at = [0] ∧
    ((0 : ℚ) < 1000 - window_size) ∧
    ("wonderful", 1) ∈ get_trending_words 10 demoState := by
  refine ⟨?_, ?_, ?_⟩ <;> with_unfolding_all decide

/-- Claim C2 (corrected, amended part): since eviction is performed
only during Append, the invariant holds at the clock of the most
recent append: for every ingestion sequence with non-decreasing
clocks whose last record parses, every entry then retained in any of
the three windows was ingested within `window_size` of the last
append's clock, so a snapshot taken at that clock reflects no entry
older than the horizon. -/
theorem claim_C2_amended (pol : String → ℚ) (floatP isoP : String → Option ℚ)
    (apps0 : List (ℚ × RawData)) (tl : ℚ) (rl : RawData)
    (hmono : List.Sorted (· ≤ ·) ((apps0 ++ [(tl, rl)]).map Prod.fst))
    (hparse : parseFields floatP isoP rl ≠ none) :
    (∀ e ∈ (runIngest pol floatP isoP (apps0 ++ [(tl, rl)]) initState).review_window,
      tl - window_size ≤ e.added_at) ∧
    (∀ e ∈ (runIngest pol floatP isoP (apps0 ++ [(tl, rl)]) initState).word_window,
      tl - window_size ≤ e.added_at) ∧
    (∀ e ∈ (runIngest pol floatP isoP (apps0 ++ [(tl, rl)]) initState).rating_window,
      tl - window_size ≤ e.added_at) := by
  simp only [List.map_append, List.map_cons, List.map_nil] at hmono
  have hfull : List.Sorted (· ≤ ·)
      ((apps0.map Prod.fst ++ [tl]).headI :: (apps0.map Prod.fst ++ [tl])) :=
    sorted_headI_cons hmono
  have hsort0 : List.Sorted (· ≤ ·)
      ((apps0.map Prod.fst ++ [tl]).headI :: apps0.map Prod.fst) :=
    hfull.sublist ((List.sublist_append_left _ _).cons₂ _)
  have hprev := runIngest_inv pol floatP isoP apps0 initState
    (apps0.map Prod.fst ++ [tl]).headI (ingestInv_init _) hsort0
  have hLle : (apps0.map Prod.fst).getLastD (apps0.map Prod.fst ++ [tl]).headI ≤ tl := by
    have hmem := getLastD_mem (apps0.map Prod.fst) (apps0.map Prod.fst ++ [tl]).headI
    have hsplit := List.pairwise_append.mp (by
      simpa using hfull :
        List.Pairwise (· ≤ ·)
          (((apps0.map Prod.fst ++ [tl]).headI :: apps0.map Prod.fst) ++ [tl]))
    exact hsplit.2.2 _ hmem tl (List.mem_singleton.mpr rfl)
  have hprev2 := ingestInv_mono hLle _ hprev
  obtain ⟨⟨text, stars, biz, ts⟩, hp⟩ := Option.ne_none_iff_exists'.mp hparse
  have hfin : runIngest pol floatP isoP (apps0 ++ [(tl, rl)]) initState =
      process_record pol floatP isoP tl (runIngest pol floatP isoP apps0 initState) rl := by
    simp [runIngest, List.foldl_append]
  rw [hfin]
  unfold process_record
  rw [hp]
  obtain ⟨⟨s1, s2, s3⟩, b1, b2, b3⟩ := hprev2
  exact ⟨cleanWindow_ge _ tl _ (windowSorted_append _ tl _ _ rfl s1 b1),
    cleanWindow_ge _ tl _ (windowSorted_append _ tl _ _ rfl s2 b2),
    cleanWindow_ge _ tl _ (windowSorted_append _ tl _ _ rfl s3 b3)⟩

/-- Claim C2 amended witness: two ingestions at clocks 0 and 100; the
retained entries of all three windows lie within the horizon of the
last clock. -/
theorem claim_C2_amended_witness :
    (List.Sorted (· ≤ ·)
        (([((0 : ℚ), demoRecord)] ++ [((100 : ℚ), demoRecord)]).map Prod.fst) ∧
      parseFields (fun _ => none) (fun _ => some 0) demoRecord ≠ none) ∧
    (∀ e ∈ (runIngest (fun _ => 0) (fun _ => none) (fun _ => some 0)
        ([((0 : ℚ), demoRecord)] ++ [((100 : ℚ), demoRecord)]) initState).review_window,
      (100 : ℚ) - window_size ≤ e.added_at) ∧
    (∀ e ∈ (runIngest (fun _ => 0) (fun _ => none) (fun _ => some 0)
        ([((0 : ℚ), demoRecord)] ++ [((100 : ℚ), demoRecord)]) initState).word_window,
      (100 : ℚ) - window_size ≤ e.added_at) ∧
    (∀ e ∈ (runIngest (fun _ => 0) (fun _ => none) (fun _ => some 0)
        ([((0 : ℚ), demoRecord)] ++ [((100 : ℚ), demoRecord)]) initState).rating_window,
      (100 : ℚ) - window_size ≤ e.added_at) :=
  ⟨⟨by decide, by decide⟩,
    claim_C2_amended (fun _ => 0) (fun _ => none) (fun _ => some 0)
      [((0 : ℚ), demoRecord)] 100 demoRecord (by decide) (by decide)⟩
